import Mathlib

/-
Verification of the Key-Management-System repository core: envelope
encryption, master-key lifecycle and rotation, embedded shallowly from
  master-key-server/index.js, key-server/index.js,
  master_key_manager.js and rotate-mk.js.
Bytes are natural numbers below 256 and blobs are lists of bytes; base64
and hex transport encodings are treated as the identity on byte lists,
except where a hex string is observable in a response. AES-256-CBC is the
Node crypto library primitive: it is modelled as CBC chaining (embedded
here, with the automatic PKCS#7 padding the Node cipher objects apply)
over an abstract 16-byte block permutation pair.
-/

namespace KMS

/-- XOR of two byte sequences, truncating to the shorter; used for the CBC
block chaining. -/
def zipXor (a b : List Nat) : List Nat :=
  List.zipWith (fun x y => x ^^^ y) a b

/-- PKCS#7 padding exactly as the pkcs7Pad helper repeated in
master-key-server/index.js and rotate-mk.js: it always appends between 1
and 16 bytes, each equal to the pad length. Node cipher objects apply the
same rule once more automatically; that second application is modelled
inside nodeCbcEncrypt. -/
def pkcs7Pad (buf : List Nat) : List Nat :=
  buf ++ List.replicate (16 - buf.length % 16) (16 - buf.length % 16)

/-- The unvalidated JS pkcs7Unpad helper: read the last byte as the pad
length and slice it off. JS slice clamps an over-long pad to the empty
buffer, and an end bound of minus zero also yields the empty buffer,
hence the explicit zero branch. -/
def pkcs7Unpad (buf : List Nat) : List Nat :=
  let padLen := buf.getLastD 0
  if padLen = 0 then [] else buf.take (buf.length - padLen)

/-- The PKCS#7 validation decipher.final performs with automatic padding
on: the last byte n must lie between 1 and 16, fit inside the buffer, and
the final n bytes must all equal n; otherwise decryption throws. -/
def validUnpad (buf : List Nat) : Option (List Nat) :=
  let n := buf.getLastD 0
  if 1 ≤ n ∧ n ≤ 16 ∧ n ≤ buf.length ∧ (buf.drop (buf.length - n)).all (fun x => x == n) then
    some (buf.take (buf.length - n))
  else none

/-- Split a byte list into 16-byte blocks (fuel-indexed so that the
definition is structural and kernel-reducible). -/
def chunks16Go : Nat → List Nat → List (List Nat)
  | 0, _ => []
  | _, [] => []
  | fuel + 1, a :: t => (a :: t.take 15) :: chunks16Go fuel (t.drop 15)

/-- Split a byte list into 16-byte blocks. -/
def chunks16 (l : List Nat) : List (List Nat) :=
  chunks16Go l.length l

/-- The repository performs all symmetric encryption through the Node
crypto aes-256-cbc primitive. The block cipher itself is external library
code, modelled as an abstract block permutation pair on 16-byte blocks;
CBC chaining, IV handling and padding are embedded from the source. -/
structure BlockCipher where
  enc : List Nat → List Nat → List Nat
  dec : List Nat → List Nat → List Nat
  enc_len : ∀ k b, b.length = 16 → (enc k b).length = 16
  dec_enc : ∀ k b, b.length = 16 → dec k (enc k b) = b

/-- CBC encryption over a block list: each block is XORed with the
previous ciphertext block (initially the IV) before the block cipher. -/
def cbcEnc (C : BlockCipher) (k : List Nat) : List Nat → List (List Nat) → List (List Nat)
  | _, [] => []
  | prev, b :: bs =>
    let c := C.enc k (zipXor b prev)
    c :: cbcEnc C k c bs

/-- CBC decryption over a block list. -/
def cbcDec (C : BlockCipher) (k : List Nat) : List Nat → List (List Nat) → List (List Nat)
  | _, [] => []
  | prev, c :: cs => zipXor (C.dec k c) prev :: cbcDec C k c cs

/-- cipher.update followed by cipher.final on a Node aes-256-cbc cipher:
the data is PKCS#7-padded automatically and encrypted in CBC mode. -/
def nodeCbcEncrypt (C : BlockCipher) (key iv data : List Nat) : List Nat :=
  List.flatten (cbcEnc C key iv (chunks16 (pkcs7Pad data)))

/-- decipher.update followed by decipher.final on a Node aes-256-cbc
decipher: createDecipheriv validates the key and IV sizes, the ciphertext
must be a nonzero multiple of the block size, and the automatically
removed padding is validated; every failure throws. -/
def nodeCbcDecrypt (C : BlockCipher) (key iv ct : List Nat) : Except String (List Nat) :=
  if key.length ≠ 32 then .error "Invalid key length"
  else if iv.length ≠ 16 then .error "Invalid initialization vector"
  else if ct.length % 16 ≠ 0 ∨ ct = [] then .error "wrong final block length"
  else
    match validUnpad (List.flatten (cbcDec C key iv (chunks16 ct))) with
    | some r => .ok r
    | none => .error "bad decrypt"

/-- The status enum of the master_keys table. -/
inductive KeyStatus where
  | active
  | retired
  deriving DecidableEq, Repr

/-- One row of the master_keys table in master_key_manager.js: key_id,
root-key-encrypted key material, created_at and status. -/
structure MKRecord where
  keyId : String
  keyMaterialEnc : List Nat
  createdAt : Nat
  status : KeyStatus
  deriving DecidableEq, Repr

def isActive (r : MKRecord) : Bool :=
  match r.status with
  | .active => true
  | .retired => false

def notActive (r : MKRecord) : Bool := !(isActive r)

def countActive (table : List MKRecord) : Nat :=
  (table.filter isActive).length

/-- encryptKey in master_key_manager.js: AES-256-CBC under the root key
with a fresh random IV (passed as a parameter), relying on the automatic
PKCS#7 padding only; the stored blob is IV followed by ciphertext. -/
def encryptKey (C : BlockCipher) (rootKey iv keyBuf : List Nat) : List Nat :=
  iv ++ nodeCbcEncrypt C rootKey iv keyBuf

/-- decryptKey in master_key_manager.js: split IV and ciphertext and
decrypt under the root key (automatic padding validated and removed). -/
def decryptKey (C : BlockCipher) (rootKey blob : List Nat) : Except String (List Nat) :=
  nodeCbcDecrypt C rootKey (blob.take 16) (blob.drop 16)

def hasKeyId (table : List MKRecord) (k : String) : Bool :=
  table.any (fun r => r.keyId == k)

/-- The inputs of one addMasterKey call: the fresh random IV used by
encryptKey, the caller-chosen key id, the raw 32-byte key material (the
hex argument decoded) and the insertion timestamp. -/
structure AddInput where
  iv : List Nat
  keyId : String
  keyBytes : List Nat
  now : Nat
  deriving DecidableEq, Repr

/-- addMasterKey in master_key_manager.js: wrap the material under the
root key, INSERT a new row with status active, then UPDATE every other
active row to retired. The UNIQUE constraint on key_id makes the INSERT
throw on a duplicate id, leaving the table unchanged. -/
def addMasterKey (C : BlockCipher) (rootKey : List Nat) (inp : AddInput) (table : List MKRecord) : Except String (List MKRecord) :=
  if hasKeyId table inp.keyId then .error "ER_DUP_ENTRY"
  else
    let inserted := table ++ [⟨inp.keyId, encryptKey C rootKey inp.iv inp.keyBytes, inp.now, .active⟩]
    .ok (inserted.map (fun r =>
      if r.keyId ≠ inp.keyId ∧ r.status = KeyStatus.active then
        ⟨r.keyId, r.keyMaterialEnc, r.createdAt, .retired⟩
      else r))

/-- A sequence of addMasterKey calls executed one after another; a call
that throws leaves the table as it was. -/
def runAdds (C : BlockCipher) (rootKey : List Nat) : List AddInput → List MKRecord → List MKRecord
  | [], table => table
  | inp :: rest, table =>
    runAdds C rootKey rest
      (match addMasterKey C rootKey inp table with
       | .ok t2 => t2
       | .error _ => table)

def pickLater (acc : Option MKRecord) (r : MKRecord) : Option MKRecord :=
  if isActive r then
    match acc with
    | none => some r
    | some a => if a.createdAt < r.createdAt then some r else some a
  else acc

/-- SELECT WHERE status = active ORDER BY created_at DESC LIMIT 1:
the active record with the greatest created_at (the earlier row on ties,
which MySQL leaves unspecified). -/
def latestActive (table : List MKRecord) : Option MKRecord :=
  table.foldl pickLater none

/-- getActiveMasterKey in master_key_manager.js. -/
def getActiveMasterKey (C : BlockCipher) (rootKey : List Nat) (table : List MKRecord) : Except String (String × List Nat) :=
  match latestActive table with
  | none => .error "No active master key"
  | some r =>
    match decryptKey C rootKey r.keyMaterialEnc with
    | .error e => .error e
    | .ok m => .ok (r.keyId, m)

/-- rows.map over the selected rows, with a decryptKey failure thrown out
of the enclosing function, as in JS. -/
def unwrapRows (C : BlockCipher) (rootKey : List Nat) : List MKRecord → Except String (List (String × List Nat))
  | [] => .ok []
  | r :: rs =>
    match decryptKey C rootKey r.keyMaterialEnc with
    | .error e => .error e
    | .ok m =>
      match unwrapRows C rootKey rs with
      | .error e => .error e
      | .ok l => .ok ((r.keyId, m) :: l)

/-- getRetiredMasterKeys in master_key_manager.js: SELECT key_id,
key_material WHERE status = retired, with no ORDER BY clause, so rows
come back in table order; each material is unwrapped under the root
key. -/
def getRetiredMasterKeys (C : BlockCipher) (rootKey : List Nat) (table : List MKRecord) : Except String (List (String × List Nat)) :=
  unwrapRows C rootKey (table.filter notActive)

def hexDigit (n : Nat) : Char :=
  if n < 10 then Char.ofNat (48 + n) else Char.ofNat (87 + n)

/-- Buffer.toString with the hex encoding: two lowercase hex digits per
byte. -/
def hexEncode (l : List Nat) : String :=
  String.mk (l.foldr (fun b acc => hexDigit (b / 16) :: hexDigit (b % 16) :: acc) [])

/-- Responses of POST /api/encrypt: 400, 500 or the two blobs. -/
inductive EncryptResp where
  | badRequest
  | serverError
  | ok (encryptedKey : List Nat) (encryptedDek : List Nat)
  deriving DecidableEq, Repr

/-- Responses of POST /api/decrypt-dek: 400, 401, 500 or the hex DEK. -/
inductive DekResp where
  | badRequest
  | unauthorized
  | serverError
  | ok (dek : String)
  deriving DecidableEq, Repr

/-- POST /api/encrypt in master-key-server/index.js. Fields carry the
decoded bytes of the base64 data and the hex dek; a missing or empty
field (JS falsy) is none. The two fresh random IVs are parameters. The
handler checks the active master key and the DEK are exactly 32 bytes,
then produces encrypted_key (payload under the DEK) and encrypted_dek
(DEK under the master key), each manually padded before the cipher adds
its own padding. -/
def encryptHandler (C : BlockCipher) (rootKey : List Nat) (mkTable : List MKRecord) (iv iv2 : List Nat) (dataField dekField : Option (List Nat)) : EncryptResp :=
  match dataField, dekField with
  | some plainData, some dekBuf =>
    match getActiveMasterKey C rootKey mkTable with
    | .error _ => .serverError
    | .ok (_, masterKey) =>
      if masterKey.length ≠ 32 then .serverError
      else if dekBuf.length ≠ 32 then .serverError
      else .ok (iv ++ nodeCbcEncrypt C dekBuf iv (pkcs7Pad plainData))
              (iv2 ++ nodeCbcEncrypt C masterKey iv2 (pkcs7Pad dekBuf))
  | _, _ => .badRequest

/-- POST /api/decrypt-dek in master-key-server/index.js. The bearer token
is verified through the auth collaborator, modelled as a function from
tokens to the subject id of the token payload (none on any verification
failure, which the handler maps to 401). The handler then unwraps the
blob under the active master key and answers with the hex DEK. It
receives no owner identity and performs no subject-owner comparison, and
it never checks the length of the recovered DEK. -/
def decryptDekHandler (C : BlockCipher) (verifyTok : String → Option String) (rootKey : List Nat) (mkTable : List MKRecord) (tokenField : Option String) (dekBlobField : Option (List Nat)) : DekResp :=
  match tokenField, dekBlobField with
  | some token, some encryptedDek =>
    match verifyTok token with
    | none => .unauthorized
    | some _ =>
      match getActiveMasterKey C rootKey mkTable with
      | .error _ => .serverError
      | .ok (_, masterKey) =>
        if masterKey.length ≠ 32 then .serverError
        else
          match nodeCbcDecrypt C masterKey (encryptedDek.take 16) (encryptedDek.drop 16) with
          | .error _ => .serverError
          | .ok paddedDek => .ok (hexEncode (pkcs7Unpad paddedDek))
  | _, _ => .badRequest

/-- The payload-encryption half of POST /api/encrypt, lines 41 to 44:
fresh IV followed by the CBC encryption of the manually padded plaintext
under the DEK. -/
def encryptPayload (C : BlockCipher) (dek iv p : List Nat) : List Nat :=
  iv ++ nodeCbcEncrypt C dek iv (pkcs7Pad p)

/-- The payload-decryption path of GET /api/keys in key-server/index.js
lines 121 to 129: split the IV, decipher (automatic padding validated and
stripped), then the manual unvalidated pad slice. The final utf8 toString
is not modelled; the plaintext is returned as bytes. -/
def decryptPayload (C : BlockCipher) (dek blob : List Nat) : Except String (List Nat) :=
  match nodeCbcDecrypt C dek (blob.take 16) (blob.drop 16) with
  | .error e => .error e
  | .ok padded => .ok (pkcs7Unpad padded)

/-- The DEK-unwrap computation of POST /api/decrypt-dek lines 81 to 86,
as a function of the master-key material, used to state what a stored
wrapped DEK unwraps to under given material. -/
def unwrapDek (C : BlockCipher) (mk blob : List Nat) : Except String (List Nat) :=
  match nodeCbcDecrypt C mk (blob.take 16) (blob.drop 16) with
  | .error e => .error e
  | .ok padded => .ok (pkcs7Unpad padded)

/-- A JS value handed to rotate-mk.js decryptDek and encryptDek as the
masterKey argument: those helpers expect a string (they call the String
method padEnd on it), but the key manager supplies Buffer material. -/
inductive MKVal where
  | str (s : String)
  | buf (b : List Nat)
  deriving DecidableEq

def padEndStr (s : String) (n : Nat) (c : Char) : String :=
  s ++ String.mk (List.replicate (n - s.length) c)

def stringBytes (s : String) : List Nat :=
  s.toUTF8.toList.map (fun b => b.toNat)

/-- Buffer.from(masterKey.padEnd(32, zero digit)) in rotate-mk.js lines
34 and 43: padEnd is defined on strings; on a Buffer the property lookup
yields undefined and the call throws a TypeError, which lands in the
per-row catch. -/
def bufferFromPadEnd (v : MKVal) : Except String (List Nat) :=
  match v with
  | .str s => .ok (stringBytes (padEndStr s 32 (Char.ofNat 48)))
  | .buf _ => .error "TypeError: masterKey.padEnd is not a function"

/-- decryptDek in rotate-mk.js: coerce the master key through padEnd,
split IV and ciphertext, decipher (validated automatic unpad), then the
manual unvalidated pkcs7Unpad. -/
def decryptDek (C : BlockCipher) (encryptedDek : List Nat) (masterKey : MKVal) : Except String (List Nat) :=
  match bufferFromPadEnd masterKey with
  | .error e => .error e
  | .ok mkBytes =>
    match nodeCbcDecrypt C mkBytes (encryptedDek.take 16) (encryptedDek.drop 16) with
    | .error e => .error e
    | .ok padded => .ok (pkcs7Unpad padded)

/-- encryptDek in rotate-mk.js: coerce the master key through padEnd
(createCipheriv then requires a 32-byte key), manually pad the DEK and
encrypt it in CBC mode behind a fresh IV. -/
def encryptDek (C : BlockCipher) (dekBytes : List Nat) (masterKey : MKVal) (iv : List Nat) : Except String (List Nat) :=
  match bufferFromPadEnd masterKey with
  | .error e => .error e
  | .ok mkBytes =>
    if mkBytes.length ≠ 32 then .error "Invalid key length"
    else .ok (iv ++ nodeCbcEncrypt C mkBytes iv (pkcs7Pad dekBytes))

/-- One row of the kms_keys DEK-envelope table. The stored table created
in key-server/index.js keys rows by user_id, while rotate-mk.js addresses
rows through a key_id column; the row identifier used by rotation is
modelled as keyId alongside the stored owner, payload, wrapped DEK and
timestamp fields. -/
structure KmsRow where
  keyId : String
  ownerId : String
  encryptedKey : List Nat
  encryptedDek : List Nat
  createdAt : Nat
  deriving DecidableEq, Repr

/-- Outcome of one rotation run: the table rows after the loop, the ids
logged as rotated and the ids logged as failed. -/
structure RotateResult where
  rows : List KmsRow
  rotatedIds : List String
  failedIds : List String
  deriving DecidableEq, Repr

/-- The body of the per-row try block in rotateMasterKey: unwrap under
the old key, rewrap under the new key, and UPDATE only the encrypted_dek
column of that row; a thrown error leaves the row unchanged and is
logged as a failure. -/
def rotateStep (C : BlockCipher) (oldKey newKey : MKVal) (iv : List Nat) (row : KmsRow) : KmsRow × Bool :=
  match (decryptDek C row.encryptedDek oldKey).bind (fun dekBytes => encryptDek C dekBytes newKey iv) with
  | .error _ => (row, false)
  | .ok newEnc => (⟨row.keyId, row.ownerId, row.encryptedKey, newEnc, row.createdAt⟩, true)

/-- The row loop of rotateMasterKey: every row is attempted in order,
each inside its own try block. -/
def processRows (C : BlockCipher) (oldKey newKey : MKVal) (ivs : Nat → List Nat) : Nat → List KmsRow → RotateResult
  | _, [] => ⟨[], [], []⟩
  | idx, row :: rest =>
    let step := rotateStep C oldKey newKey (ivs idx) row
    let r := processRows C oldKey newKey ivs (idx + 1) rest
    if step.2 then ⟨step.1 :: r.rows, row.keyId :: r.rotatedIds, r.failedIds⟩
    else ⟨step.1 :: r.rows, r.rotatedIds, row.keyId :: r.failedIds⟩

/-- rotateMasterKey in rotate-mk.js: fetch the active key and the retired
keys (the first retired row is taken as the old key), read all envelope
rows, then run the per-row loop; only the reads outside the loop throw
out of the function. The fresh per-row IVs are drawn from a stream. -/
def rotateMasterKey (C : BlockCipher) (rootKey : List Nat) (mkTable : List MKRecord) (rowsRes : Except String (List KmsRow)) (ivs : Nat → List Nat) : Except String RotateResult :=
  match getActiveMasterKey C rootKey mkTable with
  | .error e => .error e
  | .ok active =>
    match getRetiredMasterKeys C rootKey mkTable with
    | .error e => .error e
    | .ok retiredList =>
      match retiredList.head? with
      | none => .error "No retired old master key found."
      | some old =>
        match rowsRes with
        | .error e => .error e
        | .ok rows => .ok (processRows C (.buf old.2) (.buf active.2) ivs 0 rows)

def insertDesc (r : MKRecord) : List MKRecord → List MKRecord
  | [] => [r]
  | x :: xs => if x.createdAt ≤ r.createdAt then r :: x :: xs else x :: insertDesc r xs

def sortDesc (l : List MKRecord) : List MKRecord :=
  l.foldr insertDesc []

/-- Modelled from the spec: getRetired returns all Retired records,
unwrapped, ordered newest first. This definition follows the spec words
(sorting the retired rows by descending creation time before unwrapping)
so that it can be compared with getRetiredMasterKeys as embedded from the
source. -/
def getRetiredNewestFirstSpec (C : BlockCipher) (rootKey : List Nat) (table : List MKRecord) : Except String (List (String × List Nat)) :=
  unwrapRows C rootKey (sortDesc (table.filter notActive))

/-- Flip the bits selected by mask m inside byte i of a blob; the claims
about tampering quantify over single-bit masks. -/
def flipByte (l : List Nat) (i : Nat) (m : Nat) : List Nat :=
  l.set i (l.getD i 0 ^^^ m)

instance exceptDecEq {e a : Type} [DecidableEq e] [DecidableEq a] : DecidableEq (Except e a)
  | .error x, .error y =>
    if h : x = y then isTrue (by rw [h]) else isFalse (fun hh => by cases hh; exact h rfl)
  | .error _, .ok _ => isFalse (fun hh => by cases hh)
  | .ok _, .error _ => isFalse (fun hh => by cases hh)
  | .ok x, .ok y =>
    if h : x = y then isTrue (by rw [h]) else isFalse (fun hh => by cases hh; exact h rfl)

/-- The abstract block cipher instance used for concrete evaluations: XOR
with a 16-byte stream derived from the key. It satisfies the block-length
and inversion laws the CBC lemmas require. -/
def xorEnc (k b : List Nat) : List Nat := zipXor b ((k ++ List.replicate 16 0).take 16)

theorem zipXor_length (a b : List Nat) : (zipXor a b).length = min a.length b.length := by
  simp [zipXor]

theorem zipXor_cancel (a : List Nat) : ∀ (b : List Nat), a.length = b.length → zipXor (zipXor a b) b = a := by
  induction a with
  | nil =>
    intro b h
    cases b with
    | nil => rfl
    | cons y ys => simp at h
  | cons x xs ih =>
    intro b h
    cases b with
    | nil => simp at h
    | cons y ys =>
      simp only [List.length_cons] at h
      simp only [zipXor, List.zipWith_cons_cons, List.cons.injEq] at *
      exact ⟨by rw [Nat.xor_assoc, Nat.xor_self, Nat.xor_zero], ih ys (by omega)⟩

theorem xorEnc_len (k b : List Nat) (hb : b.length = 16) : (xorEnc k b).length = 16 := by
  rw [xorEnc, zipXor_length, hb]
  simp

theorem xorEnc_cancel (k b : List Nat) (hb : b.length = 16) : xorEnc k (xorEnc k b) = b := by
  rw [xorEnc, xorEnc]
  apply zipXor_cancel
  rw [hb]
  simp

def xorCipher : BlockCipher := ⟨xorEnc, xorEnc, xorEnc_len, xorEnc_cancel⟩

theorem chunks16Go_congr (f1 : Nat) : ∀ (f2 : Nat) (l : List Nat), l.length ≤ f1 → l.length ≤ f2 → chunks16Go f1 l = chunks16Go f2 l := by
  induction f1 with
  | zero =>
    intro f2 l h1 _
    have hl : l = [] := List.eq_nil_of_length_eq_zero (Nat.le_zero.mp h1)
    subst hl
    cases f2 <;> rfl
  | succ n ih =>
    intro f2 l h1 h2
    cases l with
    | nil => cases f2 <;> rfl
    | cons a t =>
      cases f2 with
      | zero => simp at h2
      | succ m =>
        simp only [chunks16Go]
        refine congrArg _ (ih m (t.drop 15) ?_ ?_) <;>
          simp only [List.length_cons, List.length_drop] at * <;> omega

theorem chunks16_eq_cons (l : List Nat) (h : l ≠ []) : chunks16 l = l.take 16 :: chunks16 (l.drop 16) := by
  cases l with
  | nil => exact absurd rfl h
  | cons a t =>
    show chunks16Go (a :: t).length (a :: t) = _
    simp only [List.length_cons, chunks16Go]
    have h1 : (a :: t).take 16 = a :: t.take 15 := rfl
    have h2 : (a :: t).drop 16 = t.drop 15 := rfl
    rw [h1, h2]
    refine congrArg _ ?_
    exact chunks16Go_congr t.length (t.drop 15).length (t.drop 15) (by simp only [List.length_drop]; omega) (le_refl _)

theorem chunks16_block (b rest : List Nat) (hb : b.length = 16) : chunks16 (b ++ rest) = b :: chunks16 rest := by
  have hne : b ++ rest ≠ [] := by
    intro h
    have := congrArg List.length h
    simp [hb] at this
  rw [chunks16_eq_cons _ hne]
  congr 1
  · rw [← hb]; exact List.take_left b rest
  · rw [show (16 : Nat) = b.length from hb.symm]
    rw [List.drop_left b rest]

theorem chunks16_len (l : List Nat) (h : l.length % 16 = 0) : ∀ b ∈ chunks16 l, b.length = 16 := by
  generalize hn : l.length = n
  induction n using Nat.strong_induction_on generalizing l with
  | _ n ih =>
    cases l with
    | nil => intro b hb; simp [chunks16, chunks16Go] at hb
    | cons a t =>
      have hlen : 16 ≤ (a :: t).length := by
        simp only [List.length_cons] at h ⊢
        omega
      rw [chunks16_eq_cons _ (by simp)]
      intro b hb
      cases hb with
      | head => simp only [List.length_take]; omega
      | tail _ hmem =>
        refine ih ((a :: t).drop 16).length ?_ _ ?_ rfl b hmem
        · simp only [List.length_drop]
          omega
        · simp only [List.length_drop, List.length_cons] at h ⊢
          simp only [List.length_cons] at hn
          omega

theorem flatten_chunks16 (l : List Nat) : (chunks16 l).flatten = l := by
  generalize hn : l.length = n
  induction n using Nat.strong_induction_on generalizing l with
  | _ n ih =>
    cases l with
    | nil => rfl
    | cons a t =>
      rw [chunks16_eq_cons _ (by simp)]
      simp only [List.flatten_cons]
      rw [ih ((a :: t).drop 16).length (by simp only [List.length_drop, ← hn]; simp; omega) _ rfl]
      exact List.take_append_drop 16 (a :: t)

theorem flatten_len16 (L : List (List Nat)) (h : ∀ b ∈ L, b.length = 16) : L.flatten.length = 16 * L.length := by
  induction L with
  | nil => rfl
  | cons b bs ih =>
    simp only [List.flatten_cons, List.length_append, List.length_cons]
    rw [h b (by simp), ih (fun x hx => h x (by simp [hx]))]
    ring

theorem chunks16_flatten (L : List (List Nat)) (h : ∀ b ∈ L, b.length = 16) : chunks16 L.flatten = L := by
  induction L with
  | nil => rfl
  | cons b bs ih =>
    simp only [List.flatten_cons]
    rw [chunks16_block b _ (h b (by simp))]
    rw [ih (fun x hx => h x (by simp [hx]))]

theorem cbcEnc_length (C : BlockCipher) (k : List Nat) (bs : List (List Nat)) : ∀ (prev : List Nat), (cbcEnc C k prev bs).length = bs.length := by
  induction bs with
  | nil => intro prev; rfl
  | cons b bs ih => intro prev; simp only [cbcEnc, List.length_cons, ih]

theorem cbcEnc_mem_len (C : BlockCipher) (k : List Nat) (bs : List (List Nat)) : ∀ (prev : List Nat), prev.length = 16 → (∀ b ∈ bs, b.length = 16) → ∀ c ∈ cbcEnc C k prev bs, c.length = 16 := by
  induction bs with
  | nil => intro prev _ _ c hc; simp [cbcEnc] at hc
  | cons b bs ih =>
    intro prev hprev hbs c hc
    simp only [cbcEnc] at hc
    have hxl : (zipXor b prev).length = 16 := by
      rw [zipXor_length, hprev, hbs b (by simp)]
      simp
    cases hc with
    | head => exact C.enc_len k _ hxl
    | tail _ hmem =>
      exact ih (C.enc k (zipXor b prev)) (C.enc_len k _ hxl) (fun x hx => hbs x (by simp [hx])) c hmem

theorem cbcDec_cbcEnc (C : BlockCipher) (k : List Nat) (bs : List (List Nat)) : ∀ (prev : List Nat), prev.length = 16 → (∀ b ∈ bs, b.length = 16) → cbcDec C k prev (cbcEnc C k prev bs) = bs := by
  induction bs with
  | nil => intro prev _ _; rfl
  | cons b bs ih =>
    intro prev hprev hbs
    have hb : b.length = 16 := hbs b (by simp)
    have hxl : (zipXor b prev).length = 16 := by
      rw [zipXor_length, hprev, hb]; simp
    simp only [cbcEnc, cbcDec, List.cons.injEq]
    constructor
    · rw [C.dec_enc k _ hxl]
      exact zipXor_cancel b prev (by omega)
    · exact ih (C.enc k (zipXor b prev)) (C.enc_len k _ hxl) (fun x hx => hbs x (by simp [hx]))

theorem cbcDec_cbcEnc_iv (C : BlockCipher) (k : List Nat) (b : List Nat) (bs : List (List Nat)) (prev prev2 : List Nat) (hc : (C.enc k (zipXor b prev)).length = 16) (hbs : ∀ x ∈ bs, x.length = 16) :
    cbcDec C k prev2 (cbcEnc C k prev (b :: bs)) = zipXor (C.dec k (C.enc k (zipXor b prev))) prev2 :: bs := by
  simp only [cbcEnc, cbcDec, List.cons.injEq]
  exact ⟨trivial, cbcDec_cbcEnc C k bs _ hc hbs⟩

theorem getLastD_append_right (xs ys : List Nat) (d : Nat) (h : ys ≠ []) : (xs ++ ys).getLastD d = ys.getLastD d := by
  cases ys with
  | nil => exact absurd rfl h
  | cons y t =>
    rw [List.getLastD_eq_getLast?, List.getLastD_eq_getLast?, List.getLast?_append_of_ne_nil]
    simp

theorem getLastD_replicate_succ (m c : Nat) : ∀ (d : Nat), (List.replicate (m + 1) c).getLastD d = c := by
  induction m with
  | zero => intro d; rfl
  | succ k ih =>
    intro d
    rw [List.replicate_succ, List.getLastD_cons]
    exact ih c

theorem getLastD_replicate (n c d : Nat) (h : n ≠ 0) : (List.replicate n c).getLastD d = c := by
  cases n with
  | zero => exact absurd rfl h
  | succ m => exact getLastD_replicate_succ m c d

theorem pad_length_mod (l : List Nat) : (pkcs7Pad l).length % 16 = 0 := by
  simp only [pkcs7Pad, List.length_append, List.length_replicate]
  omega

theorem validUnpad_pad (l : List Nat) : validUnpad (pkcs7Pad l) = some l := by
  have hp1 : 1 ≤ 16 - l.length % 16 := by omega
  have hp16 : 16 - l.length % 16 ≤ 16 := by omega
  have hlast : (pkcs7Pad l).getLastD 0 = 16 - l.length % 16 := by
    rw [pkcs7Pad, getLastD_append_right _ _ _ (by simp; omega)]
    exact getLastD_replicate _ _ _ (by omega)
  have hlen : (pkcs7Pad l).length = l.length + (16 - l.length % 16) := by
    simp [pkcs7Pad]
  simp only [validUnpad, hlast, hlen]
  rw [if_pos]
  · congr 1
    rw [show l.length + (16 - l.length % 16) - (16 - l.length % 16) = l.length from by omega]
    exact List.take_left l _
  · refine ⟨hp1, hp16, by omega, ?_⟩
    rw [show l.length + (16 - l.length % 16) - (16 - l.length % 16) = l.length from by omega]
    rw [pkcs7Pad, List.drop_left l _]
    simp

theorem unpad_pad (l : List Nat) : pkcs7Unpad (pkcs7Pad l) = l := by
  have hp : 1 ≤ 16 - l.length % 16 := by omega
  have hlast : (pkcs7Pad l).getLastD 0 = 16 - l.length % 16 := by
    rw [pkcs7Pad, getLastD_append_right _ _ _ (by simp; omega)]
    exact getLastD_replicate _ _ _ (by omega)
  simp only [pkcs7Unpad, hlast]
  rw [if_neg (by omega)]
  have hlen : (pkcs7Pad l).length = l.length + (16 - l.length % 16) := by
    simp [pkcs7Pad]
  rw [hlen, show l.length + (16 - l.length % 16) - (16 - l.length % 16) = l.length from by omega]
  exact List.take_left l _

theorem node_roundtrip (C : BlockCipher) (k iv data : List Nat) (hk : k.length = 32) (hiv : iv.length = 16) :
    nodeCbcDecrypt C k iv (nodeCbcEncrypt C k iv data) = .ok data := by
  have hmod : (pkcs7Pad data).length % 16 = 0 := pad_length_mod data
  have hblocks : ∀ b ∈ chunks16 (pkcs7Pad data), b.length = 16 := chunks16_len _ hmod
  have hctblocks : ∀ c ∈ cbcEnc C k iv (chunks16 (pkcs7Pad data)), c.length = 16 :=
    cbcEnc_mem_len C k _ iv hiv hblocks
  have hcount : (cbcEnc C k iv (chunks16 (pkcs7Pad data))).length = (chunks16 (pkcs7Pad data)).length :=
    cbcEnc_length C k _ iv
  have hchne : chunks16 (pkcs7Pad data) ≠ [] := by
    have hne : pkcs7Pad data ≠ [] := by
      intro h
      have := congrArg List.length h
      simp only [pkcs7Pad, List.length_append, List.length_replicate, List.length_nil] at this
      omega
    rw [chunks16_eq_cons _ hne]
    simp
  have hctlen : (nodeCbcEncrypt C k iv data).length = 16 * (chunks16 (pkcs7Pad data)).length := by
    rw [nodeCbcEncrypt, flatten_len16 _ hctblocks, hcount]
  have hctmod : (nodeCbcEncrypt C k iv data).length % 16 = 0 := by
    rw [hctlen]; omega
  have hctne : nodeCbcEncrypt C k iv data ≠ [] := by
    intro h
    have h2 := congrArg List.length h
    rw [hctlen] at h2
    simp only [List.length_nil] at h2
    have : (chunks16 (pkcs7Pad data)).length ≠ 0 := fun hz => hchne (List.eq_nil_of_length_eq_zero hz)
    omega
  rw [nodeCbcDecrypt, if_neg (by rw [hk]; simp), if_neg (by rw [hiv]; simp), if_neg (by push_neg; exact ⟨hctmod, hctne⟩)]
  rw [show nodeCbcEncrypt C k iv data = List.flatten (cbcEnc C k iv (chunks16 (pkcs7Pad data))) from rfl]
  rw [chunks16_flatten _ hctblocks]
  rw [cbcDec_cbcEnc C k _ iv hiv hblocks]
  rw [flatten_chunks16]
  rw [validUnpad_pad]

theorem length_flipByte (l : List Nat) (i m : Nat) : (flipByte l i m).length = l.length := by
  simp [flipByte]

theorem flipByte_append_left (a b : List Nat) (i m : Nat) (h : i < a.length) :
    flipByte (a ++ b) i m = flipByte a i m ++ b := by
  unfold flipByte
  rw [List.getD_append _ _ _ _ h]
  induction a generalizing i with
  | nil => simp at h
  | cons x xs ih =>
    cases i with
    | zero => simp
    | succ j =>
      simp only [List.cons_append, List.set_cons_succ, List.getD_cons_succ]
      rw [ih j (by simpa using h)]

theorem getD_flipByte_self (l : List Nat) (i m : Nat) (h : i < l.length) :
    (flipByte l i m).getD i 0 = l.getD i 0 ^^^ m := by
  unfold flipByte
  induction l generalizing i with
  | nil => simp at h
  | cons x xs ih =>
    cases i with
    | zero => simp
    | succ j => simpa using ih j (by simpa using h)

theorem flipByte_ne (l : List Nat) (i m : Nat) (h : i < l.length) (hm : m ≠ 0) :
    flipByte l i m ≠ l := by
  intro heq
  have h2 : (flipByte l i m).getD i 0 = l.getD i 0 := by rw [heq]
  rw [getD_flipByte_self l i m h] at h2
  have hz : m = l.getD i 0 ^^^ (l.getD i 0 ^^^ m) := by
    rw [← Nat.xor_assoc, Nat.xor_self, Nat.zero_xor]
  rw [h2, Nat.xor_self] at hz
  exact hm hz

theorem zipXor_flip_right (a : List Nat) : ∀ (b : List Nat) (i m : Nat), i < a.length → i < b.length →
    zipXor a (flipByte b i m) = flipByte (zipXor a b) i m := by
  induction a with
  | nil => intro b i m h _; simp at h
  | cons x xs ih =>
    intro b i m ha hb
    cases b with
    | nil => simp at hb
    | cons y ys =>
      cases i with
      | zero =>
        simp only [flipByte, List.getD_cons_zero, List.set_cons_zero, zipXor, List.zipWith_cons_cons]
        rw [Nat.xor_assoc]
      | succ j =>
        simp only [flipByte, List.getD_cons_succ, List.set_cons_succ, zipXor, List.zipWith_cons_cons]
        have hih := ih ys j m (by simpa using ha) (by simpa using hb)
        simpa [zipXor, flipByte] using hih

theorem pad_flip (l : List Nat) (i m : Nat) (h : i < l.length) :
    flipByte (pkcs7Pad l) i m = pkcs7Pad (flipByte l i m) := by
  rw [show pkcs7Pad l = l ++ List.replicate (16 - l.length % 16) (16 - l.length % 16) from rfl]
  rw [flipByte_append_left _ _ _ _ h]
  rw [show pkcs7Pad (flipByte l i m) = flipByte l i m ++ List.replicate (16 - (flipByte l i m).length % 16) (16 - (flipByte l i m).length % 16) from rfl]
  rw [length_flipByte]

theorem node_decrypt_flip_iv (C : BlockCipher) (k iv data : List Nat) (i m : Nat)
    (hk : k.length = 32) (hiv : iv.length = 16) (hi : i < 16) (hid : i < data.length) :
    nodeCbcDecrypt C k (flipByte iv i m) (nodeCbcEncrypt C k iv data) = .ok (flipByte data i m) := by
  have hmod : (pkcs7Pad data).length % 16 = 0 := pad_length_mod data
  have hpne : pkcs7Pad data ≠ [] := by
    intro h
    have := congrArg List.length h
    simp only [pkcs7Pad, List.length_append, List.length_replicate, List.length_nil] at this
    omega
  have hblocks : ∀ b ∈ chunks16 (pkcs7Pad data), b.length = 16 := chunks16_len _ hmod
  have hchunk : chunks16 (pkcs7Pad data) = (pkcs7Pad data).take 16 :: chunks16 ((pkcs7Pad data).drop 16) :=
    chunks16_eq_cons _ hpne
  set B1 := (pkcs7Pad data).take 16 with hB1
  set Bs := chunks16 ((pkcs7Pad data).drop 16) with hBs
  have hB1len : B1.length = 16 := by
    rw [hB1, List.length_take]
    have : 16 ≤ (pkcs7Pad data).length := by
      simp only [pkcs7Pad, List.length_append, List.length_replicate]
      omega
    omega
  have hBslen : ∀ b ∈ Bs, b.length = 16 := by
    intro b hb
    exact hblocks b (by rw [hchunk]; exact List.mem_cons_of_mem _ hb)
  have hctblocks : ∀ c ∈ cbcEnc C k iv (chunks16 (pkcs7Pad data)), c.length = 16 :=
    cbcEnc_mem_len C k _ iv hiv hblocks
  have hctlen : (nodeCbcEncrypt C k iv data).length = 16 * (chunks16 (pkcs7Pad data)).length := by
    rw [nodeCbcEncrypt, flatten_len16 _ hctblocks, cbcEnc_length]
  have hctmod : (nodeCbcEncrypt C k iv data).length % 16 = 0 := by rw [hctlen]; omega
  have hctne : nodeCbcEncrypt C k iv data ≠ [] := by
    intro h
    have h2 := congrArg List.length h
    rw [hctlen] at h2
    simp only [List.length_nil] at h2
    rw [hchunk] at h2
    simp at h2
  have hzl : (zipXor B1 iv).length = 16 := by
    rw [zipXor_length, hB1len, hiv]; simp
  have hencl : (C.enc k (zipXor B1 iv)).length = 16 := C.enc_len k _ hzl
  rw [nodeCbcDecrypt, if_neg (by rw [hk]; simp), if_neg (by rw [length_flipByte, hiv]; simp),
    if_neg (by push_neg; exact ⟨hctmod, hctne⟩)]
  rw [show nodeCbcEncrypt C k iv data = List.flatten (cbcEnc C k iv (chunks16 (pkcs7Pad data))) from rfl]
  rw [chunks16_flatten _ hctblocks]
  rw [hchunk]
  rw [cbcDec_cbcEnc_iv C k B1 Bs iv (flipByte iv i m) hencl hBslen]
  rw [C.dec_enc k _ hzl]
  rw [zipXor_flip_right _ _ _ _ (by rw [hzl]; exact hi) (by rw [hiv]; exact hi)]
  rw [zipXor_cancel _ _ (by rw [hB1len, hiv])]
  have hflat : List.flatten (flipByte B1 i m :: Bs) = flipByte (pkcs7Pad data) i m := by
    simp only [List.flatten_cons]
    have hjoin : Bs.flatten = (pkcs7Pad data).drop 16 := by
      rw [hBs]; exact flatten_chunks16 _
    rw [hjoin]
    have hsplit : pkcs7Pad data = B1 ++ (pkcs7Pad data).drop 16 := by
      rw [hB1]; exact (List.take_append_drop 16 (pkcs7Pad data)).symm
    conv_rhs => rw [hsplit]
    rw [flipByte_append_left _ _ _ _ (by rw [hB1len]; exact hi)]
  rw [hflat]
  rw [pad_flip _ _ _ hid]
  rw [validUnpad_pad]

/-
Concrete material for closed counterexamples and witnesses: a root key,
three 32-byte master keys, one DEK, an all-zero IV, a master-key table
with one retired and one active record, and envelope rows wrapped under
the retired and under the active key respectively.
-/

def rk0 : List Nat := List.replicate 32 5

def mk1 : List Nat := List.replicate 32 1

def mk2 : List Nat := List.replicate 32 2

def mk3 : List Nat := List.replicate 32 3

def iv0 : List Nat := List.replicate 16 0

def dek0 : List Nat := List.replicate 32 7

def ivs0 : Nat → List Nat := fun _ => iv0

def mkTbl : List MKRecord :=
  [⟨"K1", encryptKey xorCipher rk0 iv0 mk1, 1, .retired⟩,
   ⟨"K2", encryptKey xorCipher rk0 iv0 mk2, 2, .active⟩]

/-- An envelope row whose wrapped DEK was produced by the vault encrypt
path under the retired key mk1 (manual pad, then the automatic cipher
pad). -/
def row1 : KmsRow := ⟨"u1", "user-7", [], iv0 ++ nodeCbcEncrypt xorCipher mk1 iv0 (pkcs7Pad dek0), 10⟩

/-- An envelope row whose wrapped DEK is already under the active key
mk2. -/
def rowNew : KmsRow := ⟨"u2", "user-9", [], iv0 ++ nodeCbcEncrypt xorCipher mk2 iv0 (pkcs7Pad dek0), 11⟩

/-- A verifier accepting exactly one token, bound to subject user-42. -/
def vTok : String → Option String := fun t => if t = "tok-42" then some "user-42" else none

/-- A 32-byte plaintext used by the tamper counterexample. -/
def pC2 : List Nat := List.replicate 32 9

/-- Claim C6: for every plaintext byte string and every 32-byte DEK,
decrypting the blob produced by the vault payload encryption (IV followed
by ciphertext, manual PKCS#7 padding then the cipher padding) with the
same DEK, the way the key-server retrieval path does, returns exactly the
plaintext. Quantified over every block cipher satisfying the CBC laws,
hence in particular over AES-256. -/
theorem c6_round_trip (C : BlockCipher) (dek iv p : List Nat) (hdek : dek.length = 32) (hiv : iv.length = 16) :
    decryptPayload C dek (encryptPayload C dek iv p) = .ok p := by
  have ht : ((iv ++ nodeCbcEncrypt C dek iv (pkcs7Pad p)).take 16) = iv := by
    rw [show (16 : Nat) = iv.length from hiv.symm]
    exact List.take_left _ _
  have hd : ((iv ++ nodeCbcEncrypt C dek iv (pkcs7Pad p)).drop 16) = nodeCbcEncrypt C dek iv (pkcs7Pad p) := by
    rw [show (16 : Nat) = iv.length from hiv.symm]
    exact List.drop_left _ _
  simp only [decryptPayload, encryptPayload, ht, hd,
    node_roundtrip C dek iv (pkcs7Pad p) hdek hiv, unpad_pad]

/-- Witness for C6 at a concrete plaintext, DEK and IV. -/
theorem c6_round_trip_w :
    decryptPayload xorCipher dek0 (encryptPayload xorCipher dek0 iv0 [1, 2, 3]) = .ok [1, 2, 3] :=
  c6_round_trip xorCipher dek0 iv0 [1, 2, 3] (by decide) (by decide)

/-- Claim C2 (amended): the stored payload blob is IV followed by CBC
ciphertext and carries no authentication tag; decryption is unauthentided
only by the final-block padding check, so it is not tamper-evident:
flipping any bit of the IV portion of the blob (and likewise of early
ciphertext blocks) makes decryption succeed and return altered plaintext
rather than fail. Here: for every block cipher, every bit position inside
the first 16 blob bytes that falls inside the plaintext length, the
flipped blob decrypts without error to the plaintext with the same bit
flipped. -/
theorem c2_iv_flip_alters (C : BlockCipher) (dek iv p : List Nat) (i j : Nat)
    (hdek : dek.length = 32) (hiv : iv.length = 16) (hi : i < 16) (hip : i < p.length) :
    decryptPayload C dek (flipByte (encryptPayload C dek iv p) i (2 ^ j)) = .ok (flipByte p i (2 ^ j))
    ∧ flipByte p i (2 ^ j) ≠ p := by
  constructor
  · have hsplit : flipByte (encryptPayload C dek iv p) i (2 ^ j) = flipByte iv i (2 ^ j) ++ nodeCbcEncrypt C dek iv (pkcs7Pad p) := by
      rw [encryptPayload, flipByte_append_left _ _ _ _ (by rw [hiv]; exact hi)]
    have hflen : (flipByte iv i (2 ^ j)).length = 16 := by rw [length_flipByte, hiv]
    have ht : ((flipByte iv i (2 ^ j) ++ nodeCbcEncrypt C dek iv (pkcs7Pad p)).take 16) = flipByte iv i (2 ^ j) := by
      rw [show (16 : Nat) = (flipByte iv i (2 ^ j)).length from hflen.symm]
      exact List.take_left _ _
    have hd : ((flipByte iv i (2 ^ j) ++ nodeCbcEncrypt C dek iv (pkcs7Pad p)).drop 16) = nodeCbcEncrypt C dek iv (pkcs7Pad p) := by
      rw [show (16 : Nat) = (flipByte iv i (2 ^ j)).length from hflen.symm]
      exact List.drop_left _ _
    have hid : i < (pkcs7Pad p).length := by
      simp only [pkcs7Pad, List.length_append, List.length_replicate]
      omega
    have hmain := node_decrypt_flip_iv C dek iv (pkcs7Pad p) i (2 ^ j) hdek hiv hi hid
    simp only [decryptPayload, hsplit, ht, hd, hmain]
    rw [pad_flip _ _ _ hip, unpad_pad]
  · exact flipByte_ne p i _ hip (Nat.pos_iff_ne_zero.mp (Nat.pos_pow_of_pos j (by omega)))

/-- Witness for the amended C2 at a concrete bit of the IV. -/
theorem c2_iv_flip_alters_w :
    decryptPayload xorCipher dek0 (flipByte (encryptPayload xorCipher dek0 iv0 [3, 1, 4]) 0 (2 ^ 0)) = .ok (flipByte [3, 1, 4] 0 (2 ^ 0))
    ∧ flipByte [3, 1, 4] 0 (2 ^ 0) ≠ [3, 1, 4] :=
  c2_iv_flip_alters xorCipher dek0 iv0 [3, 1, 4] 0 0 (by decide) (by decide) (by decide) (by decide)

/-- Counterexample to claim C2 as stated: flipping a single bit inside
blob byte 16 - the region the spec describes as the authentication tag,
in fact the first ciphertext block - does not fail: decryption returns
altered plaintext (bytes 0 and 16 flipped, the CBC malleability
pattern). -/
theorem c2_tag_region_flip_cex :
    decryptPayload xorCipher mk3 (flipByte (encryptPayload xorCipher mk3 iv0 pC2) 16 1) = .ok ((pC2.set 0 8).set 16 8)
    ∧ (pC2.set 0 8).set 16 8 ≠ pC2 := by decide

/-- Claim C1 (amended): the decrypt-dek handler rejects with Unauthorized
only when the bearer token is missing or fails verification; it receives
no owner identity and never compares the token subject with the owner of
the envelope whose wrapped DEK it unwraps, so a request whose verifiable
token subject differs from the envelope owner still receives the DEK. -/
theorem c1_no_owner_check (C : BlockCipher) (vrfy : String → Option String) (rootKey : List Nat)
    (tbl : List MKRecord) (token s owner kid : String) (blob padded mk : List Nat)
    (hv : vrfy token = some s) (_hmismatch : s ≠ owner)
    (hga : getActiveMasterKey C rootKey tbl = .ok (kid, mk)) (hmk : mk.length = 32)
    (hdec : nodeCbcDecrypt C mk (blob.take 16) (blob.drop 16) = .ok padded) :
    decryptDekHandler C vrfy rootKey tbl (some token) (some blob) = .ok (hexEncode (pkcs7Unpad padded))
    ∧ decryptDekHandler C vrfy rootKey tbl (some token) (some blob) ≠ .unauthorized := by
  have h : decryptDekHandler C vrfy rootKey tbl (some token) (some blob) = .ok (hexEncode (pkcs7Unpad padded)) := by
    simp only [decryptDekHandler, hv, hga, hdec]
    rw [if_neg (by rw [hmk]; simp)]
  exact ⟨h, by rw [h]; intro hh; cases hh⟩

/-- Witness for the amended C1: subject user-42 against an envelope of
user-9, wrapped under the active key. -/
theorem c1_no_owner_check_w :
    decryptDekHandler xorCipher vTok rk0 mkTbl (some "tok-42") (some rowNew.encryptedDek) = .ok (hexEncode (pkcs7Unpad (pkcs7Pad dek0)))
    ∧ decryptDekHandler xorCipher vTok rk0 mkTbl (some "tok-42") (some rowNew.encryptedDek) ≠ .unauthorized :=
  c1_no_owner_check xorCipher vTok rk0 mkTbl "tok-42" "user-42" "user-9" "K2"
    rowNew.encryptedDek (pkcs7Pad dek0) mk2
    (by decide) (by decide) (by decide) (by decide) (by decide)

/-- Counterexample to claim C1 as stated: a decrypt-dek request with a
verifiable token for subject user-42 against the envelope of user-9 and a
well-formed encrypted_dek blob is not rejected with Unauthorized; the DEK
is returned. -/
theorem c1_owner_mismatch_cex :
    vTok "tok-42" = some "user-42"
    ∧ "user-42" ≠ rowNew.ownerId
    ∧ decryptDekHandler xorCipher vTok rk0 mkTbl (some "tok-42") (some rowNew.encryptedDek) = .ok (hexEncode dek0) := by decide

/-- After any successful addMasterKey call, whatever the prior table
held, exactly one record is active: the new one stays active and the
UPDATE retires every other active row. -/
theorem add_ok_count (C : BlockCipher) (rootKey : List Nat) (inp : AddInput) (t t2 : List MKRecord)
    (h : addMasterKey C rootKey inp t = .ok t2) : countActive t2 = 1 := by
  by_cases hdup : hasKeyId t inp.keyId
  · rw [addMasterKey, if_pos hdup] at h
    cases h
  · rw [addMasterKey, if_neg hdup] at h
    injection h with h2
    subst h2
    have hne : ∀ r ∈ t, r.keyId ≠ inp.keyId := by
      simpa [hasKeyId] using hdup
    rw [countActive, List.map_append, List.filter_append, List.length_append]
    have hA : (List.filter isActive (t.map (fun r =>
        if r.keyId ≠ inp.keyId ∧ r.status = KeyStatus.active then
          (⟨r.keyId, r.keyMaterialEnc, r.createdAt, .retired⟩ : MKRecord)
        else r))) = [] := by
      rw [List.filter_eq_nil_iff]
      intro x hx
      rcases List.mem_map.mp hx with ⟨r, hr, rfl⟩
      by_cases hc : r.keyId ≠ inp.keyId ∧ r.status = KeyStatus.active
      · rw [if_pos hc]
        simp [isActive]
      · rw [if_neg hc]
        have hs : r.status ≠ KeyStatus.active := by
          intro hs
          exact hc ⟨hne r hr, hs⟩
        cases hst : r.status with
        | active => exact absurd hst hs
        | retired => simp [isActive, hst]
    rw [hA]
    simp [isActive]

/-- Running further add calls preserves the single-active count. -/
theorem runAdds_count (C : BlockCipher) (rootKey : List Nat) (inps : List AddInput) :
    ∀ t, countActive t = 1 → countActive (runAdds C rootKey inps t) = 1 := by
  induction inps with
  | nil => intro t h; exact h
  | cons a rest ih =>
    intro t h
    rw [runAdds]
    cases hadd : addMasterKey C rootKey a t with
    | ok t2 => exact ih t2 (add_ok_count C rootKey a t t2 hadd)
    | error e => exact ih t h

/-- Claim C3: for every finite sequence of addMasterKey calls executed
sequentially from the empty master-key table, after each call exactly one
record has status active and every other record has status retired (the
status enum has no further value). A duplicate-key call throws on its
INSERT and leaves the table unchanged, which also preserves the
invariant. -/
theorem c3_single_active (C : BlockCipher) (rootKey : List Nat) (inps : List AddInput) (i : Nat)
    (hne : inps ≠ []) (_hi : i < inps.length) :
    countActive (runAdds C rootKey (inps.take (i + 1)) []) = 1
    ∧ ∀ r ∈ runAdds C rootKey (inps.take (i + 1)) [],
        r.status = KeyStatus.active ∨ r.status = KeyStatus.retired := by
  constructor
  · cases inps with
    | nil => exact absurd rfl hne
    | cons a rest =>
      rw [List.take_succ_cons, runAdds]
      have h0 : addMasterKey C rootKey a [] = .ok ([(⟨a.keyId, encryptKey C rootKey a.iv a.keyBytes, a.now, .active⟩ : MKRecord)].map (fun r =>
          if r.keyId ≠ a.keyId ∧ r.status = KeyStatus.active then
            (⟨r.keyId, r.keyMaterialEnc, r.createdAt, .retired⟩ : MKRecord)
          else r)) := by
        rw [addMasterKey, if_neg (by simp [hasKeyId])]
        rfl
      rw [h0]
      exact runAdds_count C rootKey (rest.take i) _ (add_ok_count C rootKey a [] _ h0)
  · intro r _
    cases r.status with
    | active => exact Or.inl rfl
    | retired => exact Or.inr rfl

/-- The concrete add sequence of the C3 witness. -/
def inpsW : List AddInput := [⟨iv0, "K1", mk1, 1⟩, ⟨iv0, "K2", mk2, 2⟩]

/-- Witness for C3 after the second call of a two-call sequence. -/
theorem c3_single_active_w :
    countActive (runAdds xorCipher rk0 (inpsW.take 2) []) = 1
    ∧ ∀ r ∈ runAdds xorCipher rk0 (inpsW.take 2) [],
        r.status = KeyStatus.active ∨ r.status = KeyStatus.retired :=
  c3_single_active xorCipher rk0 inpsW 1 (by decide) (by decide)

/-- A successful unwrapRows run returns one pair per input row, in row
order, each material unwrapped with decryptKey. -/
theorem unwrapRows_ok (C : BlockCipher) (rootKey : List Nat) : ∀ (rs : List MKRecord) (l : List (String × List Nat)), unwrapRows C rootKey rs = .ok l →
    l.map Prod.fst = rs.map MKRecord.keyId
    ∧ ∀ p ∈ l, ∃ r ∈ rs, r.keyId = p.1 ∧ decryptKey C rootKey r.keyMaterialEnc = .ok p.2 := by
  intro rs
  induction rs with
  | nil =>
    intro l h
    injection h with h2
    subst h2
    exact ⟨rfl, by simp⟩
  | cons r rest ih =>
    intro l h
    rw [unwrapRows] at h
    cases hd : decryptKey C rootKey r.keyMaterialEnc with
    | error e => rw [hd] at h; cases h
    | ok m =>
      rw [hd] at h
      cases hrest : unwrapRows C rootKey rest with
      | error e => rw [hrest] at h; cases h
      | ok l2 =>
        rw [hrest] at h
        injection h with h2
        subst h2
        obtain ⟨ha, hb⟩ := ih l2 hrest
        constructor
        · simp [ha]
        · intro p hp
          rcases List.mem_cons.mp hp with hp1 | hp2
          · subst hp1
            exact ⟨r, List.mem_cons_self r rest, rfl, hd⟩
          · rcases hb p hp2 with ⟨r2, hr2, hk2, hd2⟩
            exact ⟨r2, List.mem_cons_of_mem r hr2, hk2, hd2⟩

/-- Claim C7 (amended): getRetiredMasterKeys returns exactly the records
whose status is retired, each with its material unwrapped under the root
key, in table order - the SELECT has no ORDER BY clause, so no
newest-first ordering is applied. -/
theorem c7_retired_contents (C : BlockCipher) (rk : List Nat) (tbl : List MKRecord) (l : List (String × List Nat))
    (h : getRetiredMasterKeys C rk tbl = .ok l) :
    l.map Prod.fst = (tbl.filter notActive).map MKRecord.keyId
    ∧ ∀ p ∈ l, ∃ r ∈ tbl, r.status = KeyStatus.retired ∧ r.keyId = p.1 ∧ decryptKey C rk r.keyMaterialEnc = .ok p.2 := by
  rw [getRetiredMasterKeys] at h
  obtain ⟨ha, hb⟩ := unwrapRows_ok C rk _ l h
  refine ⟨ha, ?_⟩
  intro p hp
  rcases hb p hp with ⟨r, hr, hk, hd⟩
  have hmem := List.mem_filter.mp hr
  refine ⟨r, hmem.1, ?_, hk, hd⟩
  have hna := hmem.2
  cases hst : r.status with
  | active =>
    rw [notActive, isActive, hst] at hna
    cases hna
  | retired => rfl

/-- The master-key table of the C7 counterexample: two retired records
with creation times 1 and 5, stored oldest first, and one active
record. -/
def mkTbl3 : List MKRecord :=
  [⟨"R1", encryptKey xorCipher rk0 iv0 mk1, 1, .retired⟩,
   ⟨"R2", encryptKey xorCipher rk0 iv0 mk2, 5, .retired⟩,
   ⟨"K3", encryptKey xorCipher rk0 iv0 mk3, 9, .active⟩]

/-- Witness for the amended C7 at the concrete table. -/
theorem c7_retired_contents_w :
    ([("R1", mk1), ("R2", mk2)] : List (String × List Nat)).map Prod.fst = (mkTbl3.filter notActive).map MKRecord.keyId
    ∧ ∀ p ∈ ([("R1", mk1), ("R2", mk2)] : List (String × List Nat)), ∃ r ∈ mkTbl3, r.status = KeyStatus.retired ∧ r.keyId = p.1 ∧ decryptKey xorCipher rk0 r.keyMaterialEnc = .ok p.2 :=
  c7_retired_contents xorCipher rk0 mkTbl3 [("R1", mk1), ("R2", mk2)] (by decide)

/-- Counterexample to claim C7 as stated: on a table whose retired rows
were inserted oldest first, getRetiredMasterKeys returns them oldest
first (table order), not newest first as the spec-modelled ordering
requires. -/
theorem c7_retired_order_cex :
    getRetiredMasterKeys xorCipher rk0 mkTbl3 = .ok [("R1", mk1), ("R2", mk2)]
    ∧ getRetiredNewestFirstSpec xorCipher rk0 mkTbl3 = .ok [("R2", mk2), ("R1", mk1)]
    ∧ getRetiredMasterKeys xorCipher rk0 mkTbl3 ≠ getRetiredNewestFirstSpec xorCipher rk0 mkTbl3 := by decide

theorem except_bind_ok {e a b : Type} (x : a) (f : a → Except e b) : (Except.ok x).bind f = f x := rfl

theorem except_bind_error {e a b : Type} (er : e) (f : a → Except e b) : (Except.error er).bind f = (.error er : Except e b) := rfl

theorem rotateStep_eq_of_error (C : BlockCipher) (o n : MKVal) (iv : List Nat) (row : KmsRow) (e : String)
    (hd : decryptDek C row.encryptedDek o = .error e) : rotateStep C o n iv row = (row, false) := by
  rw [rotateStep, hd, except_bind_error]

theorem rotateStep_eq_of_wrap_error (C : BlockCipher) (o n : MKVal) (iv : List Nat) (row : KmsRow) (dek : List Nat) (e : String)
    (hd : decryptDek C row.encryptedDek o = .ok dek) (he : encryptDek C dek n iv = .error e) :
    rotateStep C o n iv row = (row, false) := by
  rw [rotateStep, hd, except_bind_ok, he]

theorem rotateStep_eq_of_ok (C : BlockCipher) (o n : MKVal) (iv : List Nat) (row : KmsRow) (dek newEnc : List Nat)
    (hd : decryptDek C row.encryptedDek o = .ok dek) (he : encryptDek C dek n iv = .ok newEnc) :
    rotateStep C o n iv row = (⟨row.keyId, row.ownerId, row.encryptedKey, newEnc, row.createdAt⟩, true) := by
  rw [rotateStep, hd, except_bind_ok, he]

/-- A rotation step whose try block threw leaves the row unchanged. -/
theorem rotateStep_fail_eq (C : BlockCipher) (o n : MKVal) (iv : List Nat) (row : KmsRow)
    (h : (rotateStep C o n iv row).2 = false) : (rotateStep C o n iv row).1 = row := by
  cases hd : decryptDek C row.encryptedDek o with
  | error e => rw [rotateStep_eq_of_error C o n iv row e hd]
  | ok dek =>
    cases he : encryptDek C dek n iv with
    | error e => rw [rotateStep_eq_of_wrap_error C o n iv row dek e hd he]
    | ok newEnc =>
      rw [rotateStep_eq_of_ok C o n iv row dek newEnc hd he] at h
      cases h

/-- Unfolding equation of the row loop on a nonempty row list. -/
theorem processRows_cons (C : BlockCipher) (o n : MKVal) (ivs : Nat → List Nat) (idx : Nat) (row : KmsRow) (rest : List KmsRow) :
    processRows C o n ivs idx (row :: rest) =
      (if (rotateStep C o n (ivs idx) row).2 then
        ⟨(rotateStep C o n (ivs idx) row).1 :: (processRows C o n ivs (idx + 1) rest).rows,
         row.keyId :: (processRows C o n ivs (idx + 1) rest).rotatedIds,
         (processRows C o n ivs (idx + 1) rest).failedIds⟩
      else
        ⟨(rotateStep C o n (ivs idx) row).1 :: (processRows C o n ivs (idx + 1) rest).rows,
         (processRows C o n ivs (idx + 1) rest).rotatedIds,
         row.keyId :: (processRows C o n ivs (idx + 1) rest).failedIds⟩) := rfl

/-- The row loop returns one output row per input row. -/
theorem processRows_length (C : BlockCipher) (o n : MKVal) (ivs : Nat → List Nat) :
    ∀ (rows : List KmsRow) (idx : Nat), (processRows C o n ivs idx rows).rows.length = rows.length := by
  intro rows
  induction rows with
  | nil => intro idx; rfl
  | cons row rest ih =>
    intro idx
    rw [processRows_cons]
    cases (rotateStep C o n (ivs idx) row).2 with
    | true =>
      rw [if_pos rfl]
      simp only [List.length_cons, ih]
    | false =>
      rw [if_neg (by simp)]
      simp only [List.length_cons, ih]

/-- Each output row of the row loop is the rotation step applied to the
input row at the same position: rows are processed independently, and a
failure in one row does not affect any other row. -/
theorem processRows_get (C : BlockCipher) (o n : MKVal) (ivs : Nat → List Nat) :
    ∀ (rows : List KmsRow) (idx i : Nat),
      (processRows C o n ivs idx rows).rows[i]? = (rows[i]?).map (fun r => (rotateStep C o n (ivs (idx + i)) r).1) := by
  intro rows
  induction rows with
  | nil => intro idx i; simp [processRows]
  | cons row rest ih =>
    intro idx i
    rw [processRows_cons]
    cases i with
    | zero =>
      cases hs : (rotateStep C o n (ivs idx) row).2 with
      | true => rw [if_pos rfl]; simp
      | false => rw [if_neg (by simp)]; simp
    | succ j =>
      have harith : idx + (j + 1) = (idx + 1) + j := by omega
      cases hs : (rotateStep C o n (ivs idx) row).2 with
      | true =>
        rw [if_pos rfl]
        simp only [List.getElem?_cons_succ, harith]
        exact ih (idx + 1) j
      | false =>
        rw [if_neg (by simp)]
        simp only [List.getElem?_cons_succ, harith]
        exact ih (idx + 1) j

/-- A row whose step failed is logged in failedIds. -/
theorem processRows_failed (C : BlockCipher) (o n : MKVal) (ivs : Nat → List Nat) :
    ∀ (rows : List KmsRow) (idx i : Nat) (r : KmsRow),
      rows[i]? = some r →
      (rotateStep C o n (ivs (idx + i)) r).2 = false →
      r.keyId ∈ (processRows C o n ivs idx rows).failedIds := by
  intro rows
  induction rows with
  | nil => intro idx i r hr _; simp at hr
  | cons row rest ih =>
    intro idx i r hr hstep
    rw [processRows_cons]
    cases i with
    | zero =>
      simp only [List.getElem?_cons_zero, Option.some.injEq] at hr
      subst hr
      have hz : (rotateStep C o n (ivs idx) row).2 = false := by
        simpa using hstep
      rw [hz, if_neg (by simp)]
      exact List.mem_cons_self _ _
    | succ j =>
      simp only [List.getElem?_cons_succ] at hr
      have harith : idx + (j + 1) = (idx + 1) + j := by omega
      have hstep2 : (rotateStep C o n (ivs ((idx + 1) + j)) r).2 = false := by
        rw [← harith]
        exact hstep
      have hmem : r.keyId ∈ (processRows C o n ivs (idx + 1) rest).failedIds :=
        ih (idx + 1) j r hr hstep2
      cases hs : (rotateStep C o n (ivs idx) row).2 with
      | true =>
        rw [if_pos rfl]
        exact hmem
      | false =>
        rw [if_neg (by simp)]
        exact List.mem_cons_of_mem _ hmem

/-- Every branch of the rotation step preserves the row identifier,
owner, encrypted payload and creation time: only encrypted_dek can
change. -/
theorem rotateStep_frame (C : BlockCipher) (o n : MKVal) (iv : List Nat) (row : KmsRow) :
    (rotateStep C o n iv row).1.keyId = row.keyId
    ∧ (rotateStep C o n iv row).1.ownerId = row.ownerId
    ∧ (rotateStep C o n iv row).1.encryptedKey = row.encryptedKey
    ∧ (rotateStep C o n iv row).1.createdAt = row.createdAt := by
  cases hd : decryptDek C row.encryptedDek o with
  | error e =>
    rw [rotateStep_eq_of_error C o n iv row e hd]
    exact ⟨rfl, rfl, rfl, rfl⟩
  | ok dek =>
    cases he : encryptDek C dek n iv with
    | error e =>
      rw [rotateStep_eq_of_wrap_error C o n iv row dek e hd he]
      exact ⟨rfl, rfl, rfl, rfl⟩
    | ok newEnc =>
      rw [rotateStep_eq_of_ok C o n iv row dek newEnc hd he]
      exact ⟨rfl, rfl, rfl, rfl⟩

/-- The whole row loop preserves every field but encrypted_dek, row by
row. -/
theorem processRows_frame (C : BlockCipher) (o n : MKVal) (ivs : Nat → List Nat) :
    ∀ (rows : List KmsRow) (idx : Nat),
      List.Forall₂ (fun r r2 => r2.keyId = r.keyId ∧ r2.ownerId = r.ownerId ∧ r2.encryptedKey = r.encryptedKey ∧ r2.createdAt = r.createdAt)
        rows (processRows C o n ivs idx rows).rows := by
  intro rows
  induction rows with
  | nil => intro idx; exact List.Forall₂.nil
  | cons row rest ih =>
    intro idx
    rw [processRows_cons]
    have hstep := rotateStep_frame C o n (ivs idx) row
    cases (rotateStep C o n (ivs idx) row).2 with
    | true =>
      rw [if_pos rfl]
      exact List.Forall₂.cons ⟨hstep.1, hstep.2.1, hstep.2.2.1, hstep.2.2.2⟩ (ih (idx + 1))
    | false =>
      rw [if_neg (by simp)]
      exact List.Forall₂.cons ⟨hstep.1, hstep.2.1, hstep.2.2.1, hstep.2.2.2⟩ (ih (idx + 1))

/-- With Buffer key material - which is what the key manager returns -
every rotation step throws in padEnd, so the loop leaves every row
unchanged, rotates nothing and logs every row as failed. -/
theorem processRows_buf (C : BlockCipher) (b : List Nat) (nk : MKVal) (ivs : Nat → List Nat) :
    ∀ (rows : List KmsRow) (idx : Nat),
      processRows C (.buf b) nk ivs idx rows = ⟨rows, [], rows.map KmsRow.keyId⟩ := by
  intro rows
  induction rows with
  | nil => intro idx; rfl
  | cons row rest ih =>
    intro idx
    rw [processRows_cons, ih (idx + 1)]
    rfl

/-- Inversion of a successful rotation run into its components. -/
theorem rotate_ok_elim (C : BlockCipher) (rk : List Nat) (tbl : List MKRecord) (ivs : Nat → List Nat)
    (rows : List KmsRow) (res : RotateResult)
    (h : rotateMasterKey C rk tbl (.ok rows) ivs = .ok res) :
    ∃ act retl old, getActiveMasterKey C rk tbl = .ok act
      ∧ getRetiredMasterKeys C rk tbl = .ok retl
      ∧ retl.head? = some old
      ∧ res = processRows C (.buf old.2) (.buf act.2) ivs 0 rows := by
  rw [rotateMasterKey] at h
  split at h
  · cases h
  next act heq1 =>
    split at h
    · cases h
    next retl heq2 =>
      split at h
      · cases h
      next old heq3 =>
        injection h with h2
        exact ⟨act, retl, old, heq1, heq2, heq3, h2.symm⟩

/-- Claim C4 (the code contradicts it): an envelope wrapped under the
now-retired key mk1 before the rotation run still unwraps only under mk1
after rotateMasterKey completes. The run finishes without an overall
error, yet the row is logged as failed (decryptDek calls the String
method padEnd on the Buffer key material and throws a TypeError inside
the per-row try block), the stored wrapped DEK is unchanged, and
unwrapping it under the new active material mk2 fails instead of
yielding the DEK bytes. -/
theorem c4_rotation_never_rewraps :
    rotateMasterKey xorCipher rk0 mkTbl (.ok [row1]) ivs0 = .ok ⟨[row1], [], ["u1"]⟩
    ∧ unwrapDek xorCipher mk1 row1.encryptedDek = .ok dek0
    ∧ unwrapDek xorCipher mk2 row1.encryptedDek = .error "bad decrypt" := by decide

/-- Counterexample to claim C5 as stated: a row whose wrapped DEK is
already under the new active key is not detected and skipped as a no-op;
the loop attempts the old-key unwrap first, the attempt throws, and the
row is logged as a failure (failedIds nonempty, rotatedIds empty). -/
theorem c5_no_migrated_check_cex :
    rotateMasterKey xorCipher rk0 mkTbl (.ok [rowNew]) ivs0 = .ok ⟨[rowNew], [], ["u2"]⟩
    ∧ unwrapDek xorCipher mk2 rowNew.encryptedDek = .ok dek0 := by decide

/-- Claim C5 (amended): two successive rotation runs leave every row
unwrapping exactly as after the first run - but only degenerately so,
because every per-row attempt throws in padEnd and no run ever modifies
any row; rows already wrapped under the new key are processed again and
recorded as failures, not skipped as detected no-ops. -/
theorem c5_rerun_noop (C : BlockCipher) (rk : List Nat) (tbl : List MKRecord) (ivsA ivsB : Nat → List Nat)
    (rows : List KmsRow) (res1 res2 : RotateResult)
    (h1 : rotateMasterKey C rk tbl (.ok rows) ivsA = .ok res1)
    (h2 : rotateMasterKey C rk tbl (.ok res1.rows) ivsB = .ok res2) :
    res1.rows = rows ∧ res2.rows = res1.rows := by
  obtain ⟨act1, retl1, old1, _, _, _, hres1⟩ := rotate_ok_elim C rk tbl ivsA rows res1 h1
  obtain ⟨act2, retl2, old2, _, _, _, hres2⟩ := rotate_ok_elim C rk tbl ivsB res1.rows res2 h2
  have ha : res1.rows = rows := by rw [hres1, processRows_buf]
  have hb : res2.rows = res1.rows := by rw [hres2, processRows_buf]
  exact ⟨ha, hb⟩

/-- Witness for the amended C5 on a concrete double run. -/
theorem c5_rerun_noop_w :
    (⟨[row1], [], ["u1"]⟩ : RotateResult).rows = [row1]
    ∧ (⟨[row1], [], ["u1"]⟩ : RotateResult).rows = (⟨[row1], [], ["u1"]⟩ : RotateResult).rows :=
  c5_rerun_noop xorCipher rk0 mkTbl ivs0 ivs0 [row1] ⟨[row1], [], ["u1"]⟩ ⟨[row1], [], ["u1"]⟩ (by decide) (by decide)

/-- Claim C8: when the master keys are readable and at least one retired
key exists, a rotation run over any row list always completes without an
overall error; each output row depends only on the input row at the same
position, a row whose per-row try block failed is left unchanged and its
id is recorded among the failures, and only a failure to read the row
set itself is fatal to the run. -/
theorem c8_row_isolation (C : BlockCipher) (rk : List Nat) (tbl : List MKRecord) (ivs : Nat → List Nat)
    (rows : List KmsRow) (act : String × List Nat) (retl : List (String × List Nat)) (old : String × List Nat)
    (hga : getActiveMasterKey C rk tbl = .ok act)
    (hgr : getRetiredMasterKeys C rk tbl = .ok retl)
    (hold : retl.head? = some old) :
    (∀ e, rotateMasterKey C rk tbl (.error e) ivs = .error e)
    ∧ rotateMasterKey C rk tbl (.ok rows) ivs = .ok (processRows C (.buf old.2) (.buf act.2) ivs 0 rows)
    ∧ (processRows C (.buf old.2) (.buf act.2) ivs 0 rows).rows.length = rows.length
    ∧ (∀ i, (processRows C (.buf old.2) (.buf act.2) ivs 0 rows).rows[i]? = (rows[i]?).map (fun r => (rotateStep C (.buf old.2) (.buf act.2) (ivs i) r).1))
    ∧ (∀ i r, rows[i]? = some r → (rotateStep C (.buf old.2) (.buf act.2) (ivs i) r).2 = false →
        r.keyId ∈ (processRows C (.buf old.2) (.buf act.2) ivs 0 rows).failedIds
        ∧ (rotateStep C (.buf old.2) (.buf act.2) (ivs i) r).1 = r) := by
  refine ⟨?_, ?_, processRows_length C (.buf old.2) (.buf act.2) ivs rows 0, ?_, ?_⟩
  · intro e
    simp only [rotateMasterKey, hga, hgr, hold]
  · simp only [rotateMasterKey, hga, hgr, hold]
  · intro i
    have hg := processRows_get C (.buf old.2) (.buf act.2) ivs rows 0 i
    simpa using hg
  · intro i r hr hf
    refine ⟨?_, rotateStep_fail_eq C (.buf old.2) (.buf act.2) (ivs i) r hf⟩
    exact processRows_failed C (.buf old.2) (.buf act.2) ivs rows 0 i r hr (by simpa using hf)

/-- Witness for C8 on a concrete table and two rows. -/
theorem c8_row_isolation_w :
    (∀ e, rotateMasterKey xorCipher rk0 mkTbl (.error e) ivs0 = .error e)
    ∧ rotateMasterKey xorCipher rk0 mkTbl (.ok [row1, rowNew]) ivs0 = .ok (processRows xorCipher (.buf mk1) (.buf mk2) ivs0 0 [row1, rowNew])
    ∧ (processRows xorCipher (.buf mk1) (.buf mk2) ivs0 0 [row1, rowNew]).rows.length = [row1, rowNew].length
    ∧ (∀ i, (processRows xorCipher (.buf mk1) (.buf mk2) ivs0 0 [row1, rowNew]).rows[i]? = ([row1, rowNew][i]?).map (fun r => (rotateStep xorCipher (.buf mk1) (.buf mk2) (ivs0 i) r).1))
    ∧ (∀ i r, [row1, rowNew][i]? = some r → (rotateStep xorCipher (.buf mk1) (.buf mk2) (ivs0 i) r).2 = false →
        r.keyId ∈ (processRows xorCipher (.buf mk1) (.buf mk2) ivs0 0 [row1, rowNew]).failedIds
        ∧ (rotateStep xorCipher (.buf mk1) (.buf mk2) (ivs0 i) r).1 = r) :=
  c8_row_isolation xorCipher rk0 mkTbl ivs0 [row1, rowNew] ("K2", mk2) [("K1", mk1)] ("K1", mk1) (by decide) (by decide) (by decide)

/-- Claim C9: a rotation run can modify only the encrypted_dek field of
each envelope row; the row identifier, owner, encrypted payload and
creation time of every row are unchanged (the UPDATE statement sets
encrypted_dek alone, and a failed row is left whole). -/
theorem c9_rotation_frame (C : BlockCipher) (rk : List Nat) (tbl : List MKRecord) (ivs : Nat → List Nat)
    (rows : List KmsRow) (res : RotateResult)
    (h : rotateMasterKey C rk tbl (.ok rows) ivs = .ok res) :
    List.Forall₂ (fun r r2 => r2.keyId = r.keyId ∧ r2.ownerId = r.ownerId ∧ r2.encryptedKey = r.encryptedKey ∧ r2.createdAt = r.createdAt) rows res.rows := by
  obtain ⟨act, retl, old, _, _, _, hres⟩ := rotate_ok_elim C rk tbl ivs rows res h
  rw [hres]
  exact processRows_frame C (.buf old.2) (.buf act.2) ivs rows 0

/-- Witness for C9 on a concrete run. -/
theorem c9_rotation_frame_w :
    List.Forall₂ (fun r r2 => r2.keyId = r.keyId ∧ r2.ownerId = r.ownerId ∧ r2.encryptedKey = r.encryptedKey ∧ r2.createdAt = r.createdAt) [row1] (RotateResult.mk [row1] [] ["u1"]).rows :=
  c9_rotation_frame xorCipher rk0 mkTbl ivs0 [row1] ⟨[row1], [], ["u1"]⟩ (by decide)

/-- Claim C10: the decrypt-dek path never validates the length of the
recovered DEK - whenever the CBC decryption of the blob under the active
master key succeeds, the handler answers 200 with the hex encoding of the
manually unpadded bytes, whatever their length, including zero - while
the encrypt path rejects with a 500 any DEK whose decoded length is not
exactly 32 bytes. -/
theorem c10_no_dek_length_check (C : BlockCipher) (vrfy : String → Option String) (rootKey : List Nat)
    (tbl : List MKRecord) (kid : String) (mk : List Nat)
    (hga : getActiveMasterKey C rootKey tbl = .ok (kid, mk)) (hmk : mk.length = 32) :
    (∀ token s blob padded, vrfy token = some s →
        nodeCbcDecrypt C mk (blob.take 16) (blob.drop 16) = .ok padded →
        decryptDekHandler C vrfy rootKey tbl (some token) (some blob) = .ok (hexEncode (pkcs7Unpad padded)))
    ∧ (∀ p d iv iv2, d.length ≠ 32 →
        encryptHandler C rootKey tbl iv iv2 (some p) (some d) = .serverError) := by
  constructor
  · intro token s blob padded hv hdec
    simp only [decryptDekHandler, hv, hga, hdec]
    rw [if_neg (by rw [hmk]; simp)]
  · intro p d iv iv2 hd
    simp only [encryptHandler, hga]
    rw [if_neg (by rw [hmk]; simp), if_pos hd]

/-- A blob crafted so that the vault CBC decryption succeeds and the
manual unpad step yields the empty byte string. -/
def blobE : List Nat := iv0 ++ xorEnc mk2 (zipXor (0 :: List.replicate 15 15) iv0)

/-- Witness for C10: the crafted blob yields an empty dek in a 200
response, and a 31-byte DEK is rejected by the encrypt path. -/
theorem c10_no_dek_length_check_w :
    decryptDekHandler xorCipher vTok rk0 mkTbl (some "tok-42") (some blobE) = .ok (hexEncode (pkcs7Unpad [0]))
    ∧ hexEncode (pkcs7Unpad [0]) = ""
    ∧ encryptHandler xorCipher rk0 mkTbl iv0 iv0 (some [1]) (some (List.replicate 31 4)) = .serverError := by
  have h := c10_no_dek_length_check xorCipher vTok rk0 mkTbl "K2" mk2 (by decide) (by decide)
  exact ⟨h.1 "tok-42" "user-42" blobE [0] (by decide) (by decide), by decide,
    h.2 [1] (List.replicate 31 4) iv0 iv0 (by decide)⟩

end KMS
